import Mathlib

/-!
Verification of the inventory-management GraphQL server (`src/server.ts`).

The server keeps a process-local array `products` and a counter `nextId`,
and exposes one query (`products`, a pagination slice) and three mutations
(`addProduct`, `updateProduct`, `removeProduct`).  The definitions below are
a shallow embedding of those resolvers: JavaScript's `Array.prototype.slice`
and `Array.prototype.findIndex` are modelled by `jsSlice` and `findIndex`
(with `none` playing the role of `-1`), numbers by `Rat`/`Int`, and the
mutable module state by explicit state passing on `ServerState`.
-/

namespace Inventory

/-- A product record as stored in the server's `products` array:
`{id: string, name: string, price: number, stock: number}`. -/
structure Product where
  id : String
  name : String
  price : Rat
  stock : Int
deriving DecidableEq

/-- The server's module-level mutable state: the `products` array and the
`nextId` counter. -/
structure ServerState where
  products : List Product
  nextId : Nat
deriving DecidableEq

/-- The state at process start: `const products = []` and `let nextId = 1`. -/
def initState : ServerState := ⟨[], 1⟩

/-- Index clamping of JavaScript `Array.prototype.slice`: a negative index
counts from the end of the array (clamped below at 0); a non-negative index
is clamped above by the length. -/
def jsSliceIdx (len : Nat) (i : Int) : Nat :=
  if i < 0 then (len + i).toNat else min i.toNat len

/-- JavaScript `Array.prototype.slice(a, b)`: the elements from the clamped
index for `a` (inclusive) up to the clamped index for `b` (exclusive). -/
def jsSlice {α : Type} (l : List α) (a b : Int) : List α :=
  (l.take (jsSliceIdx l.length b)).drop (jsSliceIdx l.length a)

/-- JavaScript `Array.prototype.findIndex`, returning `none` where JavaScript
returns `-1`. -/
def findIndex {α : Type} (pred : α → Bool) : List α → Option Nat
  | [] => none
  | a :: l => if pred a then some 0 else (findIndex pred l).map (· + 1)

/-- The `products` query resolver:
`products.slice((page - 1) * perPage, page * perPage)`.
It is embedded as a state transformer to record that it leaves the state
unchanged. -/
def productsQuery (st : ServerState) (page perPage : Int) :
    List Product × ServerState :=
  (jsSlice st.products ((page - 1) * perPage) (page * perPage), st)

/-- The `addProduct` resolver: build `{id: String(nextId++), name, price,
stock}`, push it onto `products`, and return it. -/
def addProduct (st : ServerState) (name : String) (price : Rat) (stock : Int) :
    Product × ServerState :=
  let newProduct : Product := ⟨toString st.nextId, name, price, stock⟩
  (newProduct, ⟨st.products ++ [newProduct], st.nextId + 1⟩)

/-- The `updateProduct` resolver: find the index of the record whose id equals
`id`; if there is none return `null`, else overwrite that slot with
`{id, name, price, stock}` and return the new record. -/
def updateProduct (st : ServerState) (id name : String) (price : Rat)
    (stock : Int) : Option Product × ServerState :=
  match findIndex (fun product => product.id == id) st.products with
  | none => (none, st)
  | some productIndex =>
    (some ⟨id, name, price, stock⟩,
      ⟨st.products.set productIndex ⟨id, name, price, stock⟩, st.nextId⟩)

/-- The `removeProduct` resolver: find the index of the record whose id equals
`id`; if there is none return `null`, else splice that one record out of the
array and return it. -/
def removeProduct (st : ServerState) (id : String) :
    Option Product × ServerState :=
  match findIndex (fun product => product.id == id) st.products with
  | none => (none, st)
  | some productIndex =>
    (st.products[productIndex]?,
      ⟨st.products.eraseIdx productIndex, st.nextId⟩)

/-- One client-visible mutation of the server state. -/
inductive Op where
  | add (name : String) (price : Rat) (stock : Int)
  | update (id name : String) (price : Rat) (stock : Int)
  | remove (id : String)
deriving DecidableEq

/-- The state effect of one mutation. -/
def applyOp (st : ServerState) : Op → ServerState
  | .add name price stock => (addProduct st name price stock).2
  | .update id name price stock => (updateProduct st id name price stock).2
  | .remove id => (removeProduct st id).2

/-- The state after running a sequence of mutations from `initState`. -/
def runOps (ops : List Op) : ServerState := ops.foldl applyOp initState

/-- A state the server can actually be in: one reached from `initState` by
some sequence of mutations. -/
def Reachable (st : ServerState) : Prop := ∃ ops, runOps ops = st

/-- The ids handed out by `addProduct` along a run starting at `st`. -/
def assignedIds (st : ServerState) : List Op → List String
  | [] => []
  | .add name price stock :: ops =>
    (addProduct st name price stock).1.id ::
      assignedIds (applyOp st (.add name price stock)) ops
  | op :: ops => assignedIds (applyOp st op) ops

/-- The id-counter invariant: every id stored in the live list is the decimal
string of a number strictly below the `nextId` counter.  It holds in
`initState` and is preserved by every mutation, so it holds in every
reachable state. -/
def IdsBelowCounter (st : ServerState) : Prop :=
  ∀ p ∈ st.products, ∃ k : Nat, k < st.nextId ∧ p.id = toString k

/-- Whether a mutation's numeric arguments are non-negative. -/
def Op.argsNonneg : Op → Prop
  | .add _ price stock => 0 ≤ price ∧ 0 ≤ stock
  | .update _ _ price stock => 0 ≤ price ∧ 0 ≤ stock
  | .remove _ => True

/-- The numeric value of a decimal digit character. -/
def digitVal (c : Char) : Nat := c.toNat - 48

/-- Decode a list of decimal digit characters, most significant digit first,
continuing from the accumulator `acc`. -/
def decodeDigits : List Char → Nat → Nat
  | [], acc => acc
  | c :: cs, acc => decodeDigits cs (acc * 10 + digitVal c)

/-! ### Decimal rendering of identifiers

`addProduct` stamps records with `String(nextId)`, i.e. `toString` of the
counter.  Freshness of those ids rests on injectivity of `toString : Nat →
String`, proved here by decoding the digit list that `Nat.toDigitsCore`
produces. -/

theorem digitVal_digitChar : ∀ d, d < 10 → digitVal (Nat.digitChar d) = d := by
  decide

theorem decodeDigits_snoc (cs : List Char) (c : Char) (acc : Nat) :
    decodeDigits (cs ++ [c]) acc = decodeDigits cs acc * 10 + digitVal c := by
  induction cs generalizing acc with
  | nil => rfl
  | cons d ds ih => simp [decodeDigits, ih]

theorem toDigitsCore_decode (n : Nat) : ∀ fuel ds, n < fuel →
    ∃ pre, Nat.toDigitsCore 10 fuel n ds = pre ++ ds ∧ decodeDigits pre 0 = n := by
  induction n using Nat.strong_induction_on with
  | _ n ih =>
    intro fuel ds hfuel
    obtain ⟨fuel, rfl⟩ : ∃ f, fuel = f + 1 := ⟨fuel - 1, by omega⟩
    by_cases h10 : n / 10 = 0
    · refine ⟨[Nat.digitChar (n % 10)], by simp [Nat.toDigitsCore, h10], ?_⟩
      simp [decodeDigits, digitVal_digitChar (n % 10) (by omega)]
      omega
    · obtain ⟨pre, heq, hdec⟩ :=
        ih (n / 10) (Nat.div_lt_self (by omega) (by omega)) fuel
          (Nat.digitChar (n % 10) :: ds) (by omega)
      refine ⟨pre ++ [Nat.digitChar (n % 10)], ?_, ?_⟩
      · have hstep : Nat.toDigitsCore 10 (fuel + 1) n ds
            = Nat.toDigitsCore 10 fuel (n / 10) (Nat.digitChar (n % 10) :: ds) := by
          simp [Nat.toDigitsCore, h10]
        rw [hstep, heq]
        simp
      · rw [decodeDigits_snoc, hdec, digitVal_digitChar (n % 10) (by omega)]
        omega

theorem toString_nat_inj {m n : Nat} (h : toString m = toString n) : m = n := by
  obtain ⟨pm, hm, dm⟩ := toDigitsCore_decode m (m + 1) [] (Nat.lt_succ_self m)
  obtain ⟨pn, hn, dn⟩ := toDigitsCore_decode n (n + 1) [] (Nat.lt_succ_self n)
  have h' : (Nat.toDigits 10 m).asString = (Nat.toDigits 10 n).asString := h
  have hm' : Nat.toDigits 10 m = pm := by rw [Nat.toDigits, hm, List.append_nil]
  have hn' : Nat.toDigits 10 n = pn := by rw [Nat.toDigits, hn, List.append_nil]
  have hlist : pm = pn := by
    rw [hm', hn'] at h'
    exact congrArg String.data h'
  rw [← dm, ← dn, hlist]

/-! ### Lemmas about `findIndex` -/

theorem findIndex_eq_none_iff {α : Type} (pred : α → Bool) (l : List α) :
    findIndex pred l = none ↔ ∀ a ∈ l, pred a = false := by
  induction l with
  | nil => simp [findIndex]
  | cons a l ih => by_cases h : pred a <;> simp [findIndex, h, ih]

theorem findIndex_some {α : Type} {pred : α → Bool} {l : List α} {i : Nat}
    (h : findIndex pred l = some i) :
    i < l.length ∧ ∃ a, l[i]? = some a ∧ pred a = true := by
  induction l generalizing i with
  | nil => simp [findIndex] at h
  | cons a l ih =>
    by_cases hp : pred a
    · simp [findIndex, hp] at h
      subst h
      exact ⟨by simp, a, by simp, hp⟩
    · simp [findIndex, hp, Option.map_eq_some'] at h
      obtain ⟨j, hj, rfl⟩ := h
      obtain ⟨hlen, b, hb, hpb⟩ := ih hj
      exact ⟨by simpa using hlen, b, by simpa using hb, hpb⟩

theorem findIndex_first {α : Type} {pred : α → Bool} {l : List α} {i : Nat}
    (h : findIndex pred l = some i) :
    ∀ j a, j < i → l[j]? = some a → pred a = false := by
  induction l generalizing i with
  | nil => simp [findIndex] at h
  | cons x l ih =>
    by_cases hp : pred x
    · simp [findIndex, hp] at h
      subst h
      intro j a hj _
      omega
    · simp [findIndex, hp, Option.map_eq_some'] at h
      obtain ⟨k, hk, rfl⟩ := h
      intro j a hj ha
      cases j with
      | zero =>
        simp at ha
        simpa [← ha] using hp
      | succ j => exact ih hk j a (by omega) (by simpa using ha)

theorem findIndex_isSome_of_mem {α : Type} (pred : α → Bool) {l : List α}
    {a : α} (ha : a ∈ l) (hpa : pred a = true) :
    ∃ i, findIndex pred l = some i := by
  induction l with
  | nil => simp at ha
  | cons x l ih =>
    by_cases hp : pred x
    · exact ⟨0, by simp [findIndex, hp]⟩
    · have hmem : a ∈ l := by
        rcases List.mem_cons.mp ha with h | h
        · subst h
          exact absurd hpa (by simpa using hp)
        · exact h
      obtain ⟨i, hi⟩ := ih hmem
      exact ⟨i + 1, by simp [findIndex, hp, hi]⟩

/-! ### Lemmas about `jsSlice` -/

theorem take_min_length {α : Type} (l : List α) (k : Nat) :
    l.take (min k l.length) = l.take k := by
  rw [List.take_eq_take]
  omega

theorem jsSlice_nonneg {α : Type} (l : List α) (a b : Int) (ha : 0 ≤ a)
    (hab : a ≤ b) :
    jsSlice l a b = (l.drop a.toNat).take (b - a).toNat := by
  have hb : 0 ≤ b := le_trans ha hab
  unfold jsSlice jsSliceIdx
  rw [if_neg (by omega), if_neg (by omega), take_min_length]
  rcases le_total a.toNat l.length with h | h
  · rw [min_eq_left h, List.drop_take]
    congr 1
    omega
  · rw [min_eq_right h, List.drop_take, List.drop_length, List.take_nil,
      List.drop_eq_nil_of_le (by omega), List.take_nil]

theorem jsSlice_sublist {α : Type} (l : List α) (a b : Int) :
    (jsSlice l a b).Sublist l :=
  (List.drop_sublist _ _).trans (List.take_sublist _ _)

/-! ### List helpers -/

theorem set_getElem?_same {α : Type} :
    ∀ (l : List α) (i : Nat) (a : α), l[i]? = some a → l.set i a = l := by
  intro l
  induction l with
  | nil =>
    intro i a h
    simp at h
  | cons x l ih =>
    intro i a h
    cases i with
    | zero =>
      simp at h
      simp [h]
    | succ i =>
      simp at h
      simp [ih i a h]

theorem eraseIdx_map {α β : Type} (f : α → β) :
    ∀ (l : List α) (i : Nat), (l.eraseIdx i).map f = (l.map f).eraseIdx i := by
  intro l
  induction l with
  | nil =>
    intro i
    simp [List.eraseIdx]
  | cons x l ih =>
    intro i
    cases i with
    | zero => simp
    | succ i => simp [ih i]

theorem not_mem_eraseIdx_of_nodup {α : Type} :
    ∀ (l : List α) (i : Nat) (x : α),
      l.Nodup → l[i]? = some x → x ∉ l.eraseIdx i := by
  intro l
  induction l with
  | nil =>
    intro i x _ h
    simp at h
  | cons a l ih =>
    intro i x hnd h
    rw [List.nodup_cons] at hnd
    cases i with
    | zero =>
      simp at h
      subst h
      simpa using hnd.1
    | succ i =>
      simp at h
      intro hmem
      rcases List.mem_cons.mp (by simpa using hmem) with rfl | hmem'
      · exact hnd.1 (List.getElem?_mem h)
      · exact ih i x hnd.2 h hmem'

/-! ### The counter and the id invariant along runs -/

theorem updateProduct_nextId (st : ServerState) (id name : String) (price : Rat)
    (stock : Int) :
    (updateProduct st id name price stock).2.nextId = st.nextId := by
  unfold updateProduct
  split <;> rfl

theorem removeProduct_nextId (st : ServerState) (id : String) :
    (removeProduct st id).2.nextId = st.nextId := by
  unfold removeProduct
  split <;> rfl

theorem applyOp_nextId_le (st : ServerState) (op : Op) :
    st.nextId ≤ (applyOp st op).nextId := by
  cases op with
  | add name price stock => exact Nat.le_succ _
  | update id name price stock =>
    rw [applyOp, updateProduct_nextId]
  | remove id =>
    rw [applyOp, removeProduct_nextId]

theorem idsBelowCounter_applyOp {st : ServerState} (h : IdsBelowCounter st)
    (op : Op) : IdsBelowCounter (applyOp st op) := by
  cases op with
  | add name price stock =>
    intro p hp
    simp only [applyOp, addProduct, List.mem_append, List.mem_singleton] at hp
    rcases hp with hp | rfl
    · obtain ⟨k, hk, hid⟩ := h p hp
      exact ⟨k, by simp [applyOp, addProduct]; omega, hid⟩
    · exact ⟨st.nextId, by simp [applyOp, addProduct], rfl⟩
  | update id name price stock =>
    intro p hp
    rw [applyOp] at hp ⊢
    rw [updateProduct_nextId]
    cases hfi : findIndex (fun product => product.id == id) st.products with
    | none =>
      rw [updateProduct, hfi] at hp
      exact h p hp
    | some i =>
      rw [updateProduct, hfi] at hp
      rcases List.mem_or_eq_of_mem_set hp with hp' | rfl
      · exact h p hp'
      · obtain ⟨-, a, ha, hpa⟩ := findIndex_some hfi
        obtain ⟨k, hk, hid⟩ := h a (List.getElem?_mem ha)
        have haid : a.id = id := by simpa using hpa
        exact ⟨k, hk, by rw [← haid, hid]⟩
  | remove id =>
    intro p hp
    rw [applyOp] at hp ⊢
    rw [removeProduct_nextId]
    cases hfi : findIndex (fun product => product.id == id) st.products with
    | none =>
      rw [removeProduct, hfi] at hp
      exact h p hp
    | some i =>
      rw [removeProduct, hfi] at hp
      exact h p (List.Sublist.mem hp (List.eraseIdx_sublist _ _))

theorem nodupIds_applyOp {st : ServerState} (hinv : IdsBelowCounter st)
    (hnd : (st.products.map Product.id).Nodup) (op : Op) :
    (((applyOp st op).products.map Product.id)).Nodup := by
  cases op with
  | add name price stock =>
    have hmap : (applyOp st (.add name price stock)).products.map Product.id
        = st.products.map Product.id ++ [toString st.nextId] := by
      simp [applyOp, addProduct]
    rw [hmap, List.nodup_append]
    refine ⟨hnd, by simp, ?_⟩
    intro a ha ha'
    obtain ⟨p, hp, rfl⟩ := List.mem_map.mp ha
    obtain ⟨k, hk, hid⟩ := hinv p hp
    rw [List.mem_singleton] at ha'
    rw [hid] at ha'
    exact absurd (toString_nat_inj ha') (by omega)
  | update id name price stock =>
    rw [applyOp]
    cases hfi : findIndex (fun product => product.id == id) st.products with
    | none =>
      rw [updateProduct, hfi]
      exact hnd
    | some i =>
      rw [updateProduct, hfi]
      obtain ⟨-, a, ha, hpa⟩ := findIndex_some hfi
      have haid : a.id = id := by simpa using hpa
      have hmapi : (st.products.map Product.id)[i]? = some id := by
        rw [List.getElem?_map, ha]
        simp [haid]
      have : (st.products.set i ⟨id, name, price, stock⟩).map Product.id
          = st.products.map Product.id := by
        rw [List.map_set]
        exact set_getElem?_same _ _ _ hmapi
      simpa [this] using hnd
  | remove id =>
    rw [applyOp]
    cases hfi : findIndex (fun product => product.id == id) st.products with
    | none =>
      rw [removeProduct, hfi]
      exact hnd
    | some i =>
      rw [removeProduct, hfi]
      have hmap := eraseIdx_map Product.id st.products i
      simp only [hmap]
      exact List.Nodup.sublist (List.eraseIdx_sublist _ _) hnd

/-- The well-formedness facts carried along every run: the id-counter
invariant together with distinctness of the live ids. -/
def WF (st : ServerState) : Prop :=
  IdsBelowCounter st ∧ (st.products.map Product.id).Nodup

theorem wf_initState : WF initState :=
  ⟨fun p hp => absurd hp (List.not_mem_nil p), List.nodup_nil⟩

theorem wf_applyOp {st : ServerState} (h : WF st) (op : Op) :
    WF (applyOp st op) :=
  ⟨idsBelowCounter_applyOp h.1 op, nodupIds_applyOp h.1 h.2 op⟩

theorem wf_foldl : ∀ (ops : List Op) (st : ServerState), WF st →
    WF (ops.foldl applyOp st) := by
  intro ops
  induction ops with
  | nil => exact fun st h => h
  | cons op ops ih => exact fun st h => ih (applyOp st op) (wf_applyOp h op)

theorem wf_reachable {st : ServerState} (h : Reachable st) : WF st := by
  obtain ⟨ops, rfl⟩ := h
  exact wf_foldl ops initState wf_initState

theorem assignedIds_ge :
    ∀ (ops : List Op) (st : ServerState) (a : String),
      a ∈ assignedIds st ops → ∃ k, st.nextId ≤ k ∧ a = toString k := by
  intro ops
  induction ops with
  | nil =>
    intro st a ha
    simp [assignedIds] at ha
  | cons op ops ih =>
    intro st a ha
    cases op with
    | add name price stock =>
      rw [assignedIds] at ha
      rcases List.mem_cons.mp ha with rfl | ha'
      · exact ⟨st.nextId, le_refl _, rfl⟩
      · obtain ⟨k, hk, rfl⟩ := ih _ a ha'
        exact ⟨k, le_trans (applyOp_nextId_le st _) hk, rfl⟩
    | update id name price stock =>
      obtain ⟨k, hk, rfl⟩ := ih (applyOp st (.update id name price stock)) a ha
      exact ⟨k, le_trans (applyOp_nextId_le st _) hk, rfl⟩
    | remove id =>
      obtain ⟨k, hk, rfl⟩ := ih (applyOp st (.remove id)) a ha
      exact ⟨k, le_trans (applyOp_nextId_le st _) hk, rfl⟩

theorem assignedIds_nodup :
    ∀ (ops : List Op) (st : ServerState), (assignedIds st ops).Nodup := by
  intro ops
  induction ops with
  | nil =>
    intro st
    simp [assignedIds]
  | cons op ops ih =>
    intro st
    cases op with
    | add name price stock =>
      rw [assignedIds]
      rw [List.nodup_cons]
      refine ⟨?_, ih _⟩
      intro hmem
      obtain ⟨k, hk, heq⟩ := assignedIds_ge ops _ _ hmem
      have : st.nextId = k := toString_nat_inj heq
      simp [applyOp, addProduct] at hk
      omega
    | update id name price stock =>
      exact ih (applyOp st (.update id name price stock))
    | remove id =>
      exact ih (applyOp st (.remove id))

/-! ### The `products` query -/

/-- Claim C1: for every list state and every pair of integers
`(page, perPage)`, the `products` query returns exactly
`fullList.slice((page - 1) * perPage, page * perPage)` — up to `perPage`
records starting at offset `(page - 1) * perPage` — and leaves the state
unchanged (listing is a pure function of `page`, `perPage` and the current
list). -/
theorem productsQuery_pure_slice (st : ServerState) (page perPage : Int) :
    (productsQuery st page perPage).2 = st ∧
    (productsQuery st page perPage).1
      = jsSlice st.products ((page - 1) * perPage) (page * perPage) ∧
    (1 ≤ page → 0 ≤ perPage →
      (productsQuery st page perPage).1
        = (st.products.drop ((page - 1) * perPage).toNat).take perPage.toNat) := by
  refine ⟨rfl, rfl, fun hp hpp => ?_⟩
  show jsSlice st.products ((page - 1) * perPage) (page * perPage) = _
  rw [jsSlice_nonneg st.products _ _ (mul_nonneg (by omega) hpp)
    (mul_le_mul_of_nonneg_right (by omega) hpp)]
  congr 1
  have h : page * perPage - (page - 1) * perPage = perPage := by ring
  rw [h]

/-- Witness for C1: on a concrete two-record state, page 2 with one record
per page returns the second record. -/
theorem productsQuery_pure_slice_witness :
    (productsQuery ⟨[⟨"1", "a", 1, 1⟩, ⟨"2", "b", 2, 2⟩], 3⟩ 2 1).1
      = [⟨"2", "b", 2, 2⟩] := by
  have h := (productsQuery_pure_slice ⟨[⟨"1", "a", 1, 1⟩, ⟨"2", "b", 2, 2⟩], 3⟩
    2 1).2.2 (by norm_num) (by norm_num)
  rw [h]
  rfl

/-- Counterexample to claim C8: with two records, page `-1` with
`perPage = 1` requests records at offset `-2`, outside the list, yet the
query returns the first record rather than an empty result (JavaScript
`slice` interprets negative indices as counting from the end). -/
theorem productsQuery_negative_page_counterexample :
    (productsQuery ⟨[⟨"1", "a", 1, 1⟩, ⟨"2", "b", 2, 2⟩], 3⟩ (-1) 1).1
      = [⟨"1", "a", 1, 1⟩] ∧
    (productsQuery ⟨[⟨"1", "a", 1, 1⟩, ⟨"2", "b", 2, 2⟩], 3⟩ (-1) 1).1 ≠ [] := by
  decide

/-- Claim C8 (amended): for `perPage > 0` the query performs no bounds
validation: page `0` yields an empty result, and for pages `≥ 1` the result
is empty exactly when the requested offset `(page - 1) * perPage` lies at or
beyond the end of the list.  (Pages `< 0` are interpreted by JavaScript
`slice` as counting from the end of the array and can return records.) -/
theorem productsQuery_out_of_range (st : ServerState) (page perPage : Int)
    (hpp : 0 < perPage) :
    (page = 0 → (productsQuery st page perPage).1 = []) ∧
    (1 ≤ page → ((productsQuery st page perPage).1 = []
      ↔ (st.products.length : Int) ≤ (page - 1) * perPage)) := by
  constructor
  · rintro rfl
    show jsSlice st.products ((0 - 1) * perPage) (0 * perPage) = []
    unfold jsSlice jsSliceIdx
    simp
  · intro hp
    show jsSlice st.products ((page - 1) * perPage) (page * perPage) = [] ↔ _
    rw [jsSlice_nonneg st.products _ _ (mul_nonneg (by omega) (by omega))
      (mul_le_mul_of_nonneg_right (by omega) (by omega))]
    have h : page * perPage - (page - 1) * perPage = perPage := by ring
    rw [h, List.take_eq_nil_iff, List.drop_eq_nil_iff]
    have hnn : 0 ≤ (page - 1) * perPage := mul_nonneg (by omega) (by omega)
    constructor
    · rintro (h0 | hlen)
      · exact absurd h0 (by omega)
      · omega
    · intro hle
      right
      omega

/-- Witness for C8: a one-record state has an empty page 4 at two records
per page. -/
theorem productsQuery_out_of_range_witness :
    (productsQuery ⟨[⟨"1", "a", 1, 1⟩], 5⟩ 4 2).1 = [] := by
  have h := (productsQuery_out_of_range ⟨[⟨"1", "a", 1, 1⟩], 5⟩ 4 2
    (by norm_num)).2 (by norm_num)
  exact h.mpr (by norm_num)

/-! ### The `updateProduct` mutation -/

/-- Claim C5: updating an id that matches no record returns `null` and
leaves the whole state (list and counter) unchanged. -/
theorem updateProduct_not_found (st : ServerState) (id name : String)
    (price : Rat) (stock : Int) (h : ∀ p ∈ st.products, p.id ≠ id) :
    (updateProduct st id name price stock).1 = none ∧
    (updateProduct st id name price stock).2 = st := by
  have hfi : findIndex (fun product => product.id == id) st.products = none :=
    (findIndex_eq_none_iff _ _).mpr (fun a ha => by simpa using h a ha)
  unfold updateProduct
  rw [hfi]
  exact ⟨rfl, rfl⟩

/-- Witness for C5 on a concrete state and an absent id. -/
theorem updateProduct_not_found_witness :
    (updateProduct ⟨[⟨"1", "a", 1, 1⟩], 2⟩ "9" "b" 2 2).1 = none ∧
    (updateProduct ⟨[⟨"1", "a", 1, 1⟩], 2⟩ "9" "b" 2 2).2
      = ⟨[⟨"1", "a", 1, 1⟩], 2⟩ :=
  updateProduct_not_found _ "9" "b" 2 2 (by decide)

/-- Claim C4: if some record carries the given id, `updateProduct` replaces
the (first) record with that id in place: the new record
`{id, name, price, stock}` sits at the same index, the list keeps its
length, the counter is untouched, and the new record is returned. -/
theorem updateProduct_found (st : ServerState) (id name : String) (price : Rat)
    (stock : Int) (h : ∃ p ∈ st.products, p.id = id) :
    ∃ i old, st.products[i]? = some old ∧ old.id = id ∧
      (updateProduct st id name price stock).1 = some ⟨id, name, price, stock⟩ ∧
      (updateProduct st id name price stock).2.products
        = st.products.set i ⟨id, name, price, stock⟩ ∧
      (updateProduct st id name price stock).2.products[i]?
        = some ⟨id, name, price, stock⟩ ∧
      (updateProduct st id name price stock).2.products.length
        = st.products.length ∧
      (updateProduct st id name price stock).2.nextId = st.nextId := by
  obtain ⟨p, hp, hpid⟩ := h
  obtain ⟨i, hfi⟩ := findIndex_isSome_of_mem (fun product => product.id == id)
    hp (by simpa using hpid)
  obtain ⟨hlen, a, ha, hpa⟩ := findIndex_some hfi
  refine ⟨i, a, ha, by simpa using hpa, ?_⟩
  unfold updateProduct
  rw [hfi]
  refine ⟨rfl, rfl, ?_, by simp, rfl⟩
  rw [List.getElem?_set]
  simp [hlen]

/-- Witness for C4: updating id `"1"` in a one-record state returns the new
record. -/
theorem updateProduct_found_witness :
    (updateProduct ⟨[⟨"1", "a", 1, 1⟩], 2⟩ "1" "b" 2 3).1
      = some ⟨"1", "b", 2, 3⟩ := by
  obtain ⟨i, old, h1, h2, h3, hrest⟩ :=
    updateProduct_found ⟨[⟨"1", "a", 1, 1⟩], 2⟩ "1" "b" 2 3
      ⟨⟨"1", "a", 1, 1⟩, by decide, rfl⟩
  exact h3

/-! ### The `removeProduct` mutation -/

/-- Counterexample to claim C6: in a state whose list carries the id `"1"`
twice, removing id `"1"` deletes only the first matching record, and a
record with that id still appears in the subsequent listing. -/
theorem removeProduct_found_counterexample :
    (productsQuery
        (removeProduct ⟨[⟨"1", "a", 1, 1⟩, ⟨"1", "b", 2, 2⟩], 1⟩ "1").2 1 10).1
      = [⟨"1", "b", 2, 2⟩] := by
  decide

/-- Claim C6 (amended): in any state whose live ids are pairwise distinct —
which, by the reachability invariant, covers every state the server can be
in — removing a present id deletes exactly the first record matching it,
shrinks the list by one, returns the removed record, and afterwards no
record with that id appears in any listing. -/
theorem removeProduct_found (st : ServerState) (id : String)
    (hmem : ∃ p ∈ st.products, p.id = id)
    (hnd : (st.products.map Product.id).Nodup) :
    ∃ i removed, st.products[i]? = some removed ∧ removed.id = id ∧
      (∀ j b, j < i → st.products[j]? = some b → b.id ≠ id) ∧
      (removeProduct st id).1 = some removed ∧
      (removeProduct st id).2.products = st.products.eraseIdx i ∧
      (removeProduct st id).2.products.length + 1 = st.products.length ∧
      (∀ page perPage : Int,
        ∀ p ∈ (productsQuery (removeProduct st id).2 page perPage).1,
          p.id ≠ id) := by
  obtain ⟨p, hp, hpid⟩ := hmem
  obtain ⟨i, hfi⟩ := findIndex_isSome_of_mem (fun product => product.id == id)
    hp (by simpa using hpid)
  obtain ⟨hlen, a, ha, hpa⟩ := findIndex_some hfi
  have haid : a.id = id := by simpa using hpa
  have hprod : (removeProduct st id).2.products = st.products.eraseIdx i := by
    unfold removeProduct
    rw [hfi]
  have hmapi : (st.products.map Product.id)[i]? = some id := by
    rw [List.getElem?_map, ha]
    simp [haid]
  refine ⟨i, a, ha, haid, ?_, ?_, hprod, ?_, ?_⟩
  · intro j b hj hb
    have hfalse := findIndex_first hfi j b hj hb
    simpa using hfalse
  · unfold removeProduct
    rw [hfi]
    exact congrArg Prod.fst (congrArg (fun o => (o, _)) ha)
  · rw [hprod, List.length_eraseIdx, if_pos hlen]
    omega
  · intro page perPage q hq hqid
    have hq' : q ∈ (removeProduct st id).2.products :=
      List.Sublist.mem hq (jsSlice_sublist _ _ _)
    rw [hprod] at hq'
    have h1 : q.id ∈ (st.products.eraseIdx i).map Product.id :=
      List.mem_map_of_mem _ hq'
    rw [hqid, eraseIdx_map] at h1
    exact not_mem_eraseIdx_of_nodup _ i id hnd hmapi h1

/-- Witness for C6: removing id `"1"` from a concrete two-record state
shrinks the list from two records to one. -/
theorem removeProduct_found_witness :
    (removeProduct ⟨[⟨"1", "a", 1, 1⟩, ⟨"2", "b", 2, 2⟩], 3⟩
        "1").2.products.length + 1 = 2 := by
  obtain ⟨i, removed, h1, h2, h3, h4, h5, h6, h7⟩ :=
    removeProduct_found ⟨[⟨"1", "a", 1, 1⟩, ⟨"2", "b", 2, 2⟩], 3⟩ "1"
      ⟨⟨"1", "a", 1, 1⟩, by decide, rfl⟩ (by decide)
  exact h6

/-- Counterexample to claim C7: in a state whose list carries the id `"1"`
twice, the second `removeProduct "1"` still finds (and removes) a record,
returning it instead of `null`. -/
theorem removeProduct_idempotent_counterexample :
    (removeProduct
        (removeProduct ⟨[⟨"1", "a", 1, 1⟩, ⟨"1", "b", 2, 2⟩], 1⟩ "1").2 "1").1
      = some ⟨"1", "b", 2, 2⟩ := by
  decide

/-- Claim C7 (amended): removing an absent id returns `null` and leaves the
state unchanged; and in any state whose live ids are pairwise distinct —
which covers every reachable state — a second `removeProduct` on the same id
returns `null` and does not change the state further. -/
theorem removeProduct_not_found (st : ServerState) (id : String) :
    ((∀ p ∈ st.products, p.id ≠ id) →
      (removeProduct st id).1 = none ∧ (removeProduct st id).2 = st) ∧
    ((st.products.map Product.id).Nodup →
      (removeProduct (removeProduct st id).2 id).1 = none ∧
      (removeProduct (removeProduct st id).2 id).2 = (removeProduct st id).2) := by
  have habs : ∀ st' : ServerState, (∀ p ∈ st'.products, p.id ≠ id) →
      (removeProduct st' id).1 = none ∧ (removeProduct st' id).2 = st' := by
    intro st' h
    have hfi : findIndex (fun product => product.id == id) st'.products = none :=
      (findIndex_eq_none_iff _ _).mpr (fun a ha => by simpa using h a ha)
    unfold removeProduct
    rw [hfi]
    exact ⟨rfl, rfl⟩
  refine ⟨habs st, ?_⟩
  intro hnd
  cases hfi : findIndex (fun product => product.id == id) st.products with
  | none =>
    have hall : ∀ p ∈ st.products, p.id ≠ id := by
      intro p hp
      have hfalse := (findIndex_eq_none_iff _ _).mp hfi p hp
      simpa using hfalse
    rw [(habs st hall).2]
    exact habs st hall
  | some i =>
    obtain ⟨hlen, a, ha, hpa⟩ := findIndex_some hfi
    have haid : a.id = id := by simpa using hpa
    have hprod : (removeProduct st id).2.products = st.products.eraseIdx i := by
      unfold removeProduct
      rw [hfi]
    have hmapi : (st.products.map Product.id)[i]? = some id := by
      rw [List.getElem?_map, ha]
      simp [haid]
    refine habs _ ?_
    intro p hp hpid
    rw [hprod] at hp
    have h1 : p.id ∈ (st.products.eraseIdx i).map Product.id :=
      List.mem_map_of_mem _ hp
    rw [hpid, eraseIdx_map] at h1
    exact not_mem_eraseIdx_of_nodup _ i id hnd hmapi h1

/-- Witness for C7: removing an absent id returns `null`, and a repeated
removal of the same id on a concrete one-record state returns `null`. -/
theorem removeProduct_not_found_witness :
    (removeProduct ⟨[⟨"1", "a", 1, 1⟩], 2⟩ "9").1 = none ∧
    (removeProduct (removeProduct ⟨[⟨"1", "a", 1, 1⟩], 2⟩ "1").2 "1").1
      = none :=
  ⟨((removeProduct_not_found ⟨[⟨"1", "a", 1, 1⟩], 2⟩ "9").1 (by decide)).1,
    ((removeProduct_not_found ⟨[⟨"1", "a", 1, 1⟩], 2⟩ "1").2 (by decide)).1⟩

/-! ### The `addProduct` mutation -/

theorem productsQuery_natPage (st : ServerState) (page perPage : Nat)
    (hp : 1 ≤ page) :
    (productsQuery st (page : Int) (perPage : Int)).1
      = (st.products.drop ((page - 1) * perPage)).take perPage := by
  show jsSlice st.products (((page : Int) - 1) * perPage) ((page : Int) * perPage)
    = _
  rw [jsSlice_nonneg st.products _ _
    (mul_nonneg (by omega) (by omega))
    (mul_le_mul_of_nonneg_right (by omega) (by omega))]
  have h1 : ((page : Int) - 1) * perPage = (((page - 1) * perPage : Nat) : Int) := by
    have hc : ((page : Int) - 1) = ((page - 1 : Nat) : Int) := by omega
    rw [hc]
    push_cast
    ring
  have h2 : (page : Int) * perPage - ((page : Int) - 1) * perPage
      = ((perPage : Nat) : Int) := by ring
  rw [h2, h1, Int.toNat_natCast, Int.toNat_natCast]

/-- Counterexample to claim C2: in the arbitrary (unreachable) state whose
list already carries the id `"1"` while the counter still reads 1,
`addProduct` hands out `"1"` again — the live list ends up with a duplicated
id, so the assigned id is not fresh in every list state. -/
theorem addProduct_fresh_counterexample :
    (addProduct ⟨[⟨"1", "a", 1, 1⟩], 1⟩ "b" 2 2).1.id = "1" ∧
    (addProduct ⟨[⟨"1", "a", 1, 1⟩], 1⟩ "b" 2 2).2.products.map Product.id
      = ["1", "1"] := by
  decide

/-- Claim C2 (amended): in every reachable state, `addProduct` assigns the
stringified value of the counter as an id fresh with respect to the live
list, appends the record `{id, name, price, stock}` with exactly the given
field values at the end of the list, increments the counter, and returns the
new record; the listing of the page containing the new record includes it. -/
theorem addProduct_spec (st : ServerState) (name : String) (price : Rat)
    (stock : Int) (hst : Reachable st) :
    (addProduct st name price stock).1
      = ⟨toString st.nextId, name, price, stock⟩ ∧
    (∀ p ∈ st.products, p.id ≠ (addProduct st name price stock).1.id) ∧
    (addProduct st name price stock).2.products
      = st.products ++ [(addProduct st name price stock).1] ∧
    (addProduct st name price stock).2.nextId = st.nextId + 1 ∧
    (∀ perPage : Nat, 0 < perPage →
      (addProduct st name price stock).1 ∈
        (productsQuery (addProduct st name price stock).2
          ((st.products.length / perPage + 1 : Nat) : Int) (perPage : Int)).1) := by
  have hwf := wf_reachable hst
  refine ⟨rfl, ?_, rfl, rfl, ?_⟩
  · intro p hp hpid
    obtain ⟨k, hk, hid⟩ := hwf.1 p hp
    have heq : toString k = toString st.nextId := by
      rw [← hid]
      exact hpid
    exact absurd (toString_nat_inj heq) (by omega)
  · intro perPage hpp
    rw [productsQuery_natPage _ _ _ (Nat.le_add_left 1 _)]
    have hpage : st.products.length / perPage + 1 - 1
        = st.products.length / perPage :=
      Nat.add_sub_cancel (st.products.length / perPage) 1
    rw [hpage]
    have hidx : (((addProduct st name price stock).2.products.drop
          (st.products.length / perPage * perPage)).take
          perPage)[st.products.length % perPage]?
        = some (addProduct st name price stock).1 := by
      rw [List.getElem?_take, if_pos (Nat.mod_lt _ hpp), List.getElem?_drop]
      have hsum : st.products.length / perPage * perPage
          + st.products.length % perPage = st.products.length := by
        rw [mul_comm]
        exact Nat.div_add_mod _ perPage
      rw [hsum]
      show (st.products ++ [(addProduct st name price stock).1])[st.products.length]?
        = _
      rw [List.getElem?_append, if_neg (lt_irrefl _), Nat.sub_self]
      rfl
    exact List.getElem?_mem hidx

/-- Witness for C2: adding to the (reachable) initial state yields the
record with id `"1"` and the requested fields, and page 1 at ten records per
page lists it. -/
theorem addProduct_spec_witness :
    (addProduct initState "w" 1 2).1 = ⟨"1", "w", 1, 2⟩ ∧
    (addProduct initState "w" 1 2).1 ∈
      (productsQuery (addProduct initState "w" 1 2).2 1 10).1 := by
  have h := addProduct_spec initState "w" 1 2 ⟨[], rfl⟩
  refine ⟨by rw [h.1]; rfl, ?_⟩
  have h5 := h.2.2.2.2 10 (by norm_num)
  simpa using h5

/-! ### Identifier uniqueness along runs -/

/-- Claim C3: after any sequence of mutations run from the initial state,
the ids of the live records are pairwise distinct, and the ids handed out by
`addProduct` along the run are pairwise distinct as well — assigned
sequentially and never reused, even after the record carrying an id is
removed. -/
theorem ids_unique_never_reused (ops : List Op) :
    ((runOps ops).products.map Product.id).Nodup ∧
    (assignedIds initState ops).Nodup :=
  ⟨(wf_foldl ops initState wf_initState).2, assignedIds_nodup ops initState⟩

/-! ### Non-negativity of stored fields -/

/-- Counterexample to claim C9: the resolvers validate nothing, so a single
`addProduct` with price `-1` and stock `-1` reaches a state whose live
record has negative price and stock. -/
theorem products_nonneg_counterexample :
    (runOps [Op.add "w" (-1) (-1)]).products = [⟨"1", "w", -1, -1⟩] ∧
    (⟨"1", "w", -1, -1⟩ : Product).price < 0 ∧
    (⟨"1", "w", -1, -1⟩ : Product).stock < 0 := by
  decide

theorem nonneg_products_foldl :
    ∀ (ops : List Op) (st : ServerState),
      (∀ p ∈ st.products, 0 ≤ p.price ∧ 0 ≤ p.stock) →
      (∀ op ∈ ops, op.argsNonneg) →
      ∀ p ∈ (ops.foldl applyOp st).products, 0 ≤ p.price ∧ 0 ≤ p.stock := by
  intro ops
  induction ops with
  | nil => exact fun st hst _ => hst
  | cons op ops ih =>
    intro st hst hops
    refine ih (applyOp st op) ?_ (fun o ho => hops o (List.mem_cons_of_mem _ ho))
    have hop := hops op (List.mem_cons_self _ _)
    cases op with
    | add name price stock =>
      intro p hp
      simp only [applyOp, addProduct, List.mem_append, List.mem_singleton] at hp
      rcases hp with hp | rfl
      · exact hst p hp
      · exact hop
    | update id name price stock =>
      intro p hp
      rw [applyOp] at hp
      cases hfi : findIndex (fun product => product.id == id) st.products with
      | none =>
        rw [updateProduct, hfi] at hp
        exact hst p hp
      | some i =>
        rw [updateProduct, hfi] at hp
        rcases List.mem_or_eq_of_mem_set hp with hp' | rfl
        · exact hst p hp'
        · exact hop
    | remove id =>
      intro p hp
      rw [applyOp] at hp
      cases hfi : findIndex (fun product => product.id == id) st.products with
      | none =>
        rw [removeProduct, hfi] at hp
        exact hst p hp
      | some i =>
        rw [removeProduct, hfi] at hp
        exact hst p (List.Sublist.mem hp (List.eraseIdx_sublist _ _))

/-- Claim C9 (amended): non-negativity of price and stock is not enforced by
the code; it is an invariant only of runs whose mutation arguments are all
non-negative, in which case every live record has non-negative price and
stock. -/
theorem products_nonneg_of_args_nonneg (ops : List Op)
    (h : ∀ op ∈ ops, op.argsNonneg) :
    ∀ p ∈ (runOps ops).products, 0 ≤ p.price ∧ 0 ≤ p.stock :=
  nonneg_products_foldl ops initState
    (fun p hp => absurd hp (List.not_mem_nil p)) h

/-- Witness for C9 on a one-mutation run with non-negative arguments. -/
theorem products_nonneg_witness :
    0 ≤ (Product.mk "1" "w" 1 2).price ∧ 0 ≤ (Product.mk "1" "w" 1 2).stock :=
  products_nonneg_of_args_nonneg [Op.add "w" 1 2]
    (by
      intro op hop
      rw [List.mem_singleton] at hop
      subst hop
      exact ⟨by norm_num, by norm_num⟩)
    ⟨"1", "w", 1, 2⟩ (by decide)

/-! ### Frame effects of the mutations -/

/-- Claim C10: each mutation touches only its affected record: `addProduct`
leaves every pre-existing index unchanged, `updateProduct` on a found id
leaves every other index unchanged, and `removeProduct` on a found id leaves
earlier indices in place and shifts later ones down by one, preserving their
relative order. -/
theorem mutations_frame (st : ServerState) (id name : String) (price : Rat)
    (stock : Int) :
    (∀ j, j < st.products.length →
      (addProduct st name price stock).2.products[j]? = st.products[j]?) ∧
    (∀ i, findIndex (fun product => product.id == id) st.products = some i →
      ∀ j, j ≠ i →
        (updateProduct st id name price stock).2.products[j]?
          = st.products[j]?) ∧
    (∀ i, findIndex (fun product => product.id == id) st.products = some i →
      ∀ j, (j < i → (removeProduct st id).2.products[j]? = st.products[j]?) ∧
        (i ≤ j → (removeProduct st id).2.products[j]? = st.products[j + 1]?)) := by
  refine ⟨?_, ?_, ?_⟩
  · intro j hj
    show (st.products ++ [_])[j]? = _
    rw [List.getElem?_append, if_pos hj]
  · intro i hfi j hj
    have hprod : (updateProduct st id name price stock).2.products
        = st.products.set i ⟨id, name, price, stock⟩ := by
      unfold updateProduct
      rw [hfi]
    rw [hprod, List.getElem?_set_ne (Ne.symm hj)]
  · intro i hfi j
    have hprod : (removeProduct st id).2.products = st.products.eraseIdx i := by
      unfold removeProduct
      rw [hfi]
    constructor
    · intro hji
      rw [hprod, List.getElem?_eraseIdx, if_pos hji]
    · intro hij
      rw [hprod, List.getElem?_eraseIdx, if_neg (by omega)]

/-- Witness for C10: on a concrete two-record state, adding keeps the first
record at index 0, and removing id `"1"` moves the second record to
index 0. -/
theorem mutations_frame_witness :
    (addProduct ⟨[⟨"1", "a", 1, 1⟩, ⟨"2", "b", 2, 2⟩], 3⟩
        "c" 3 3).2.products[0]? = some ⟨"1", "a", 1, 1⟩ ∧
    (removeProduct ⟨[⟨"1", "a", 1, 1⟩, ⟨"2", "b", 2, 2⟩], 3⟩
        "1").2.products[0]? = some ⟨"2", "b", 2, 2⟩ := by
  have h := mutations_frame ⟨[⟨"1", "a", 1, 1⟩, ⟨"2", "b", 2, 2⟩], 3⟩ "1" "c" 3 3
  constructor
  · rw [h.1 0 (by norm_num)]
    rfl
  · rw [(h.2.2 0 (by decide) 0).2 (le_refl 0)]
    rfl

end Inventory
